import Mathlib

/-!
Verification of the tinygpt.live scalar-autodiff GPT engine.

The TypeScript sources are shallowly embedded here:
* `src/lib/value.ts` — the autograd `Value` class.  Mutable-object graphs with
  parent→child references become an arena `List Node` addressed by integer
  indices; every node is created after its children, so in a well-formed arena
  each child index is smaller than its parent's index (`WFGraph`).  The global
  generation counter `_gen`, the per-node `_gen` markers and the gradient
  accumulators become the explicit state `BackState`.
* `src/lib/gpt.ts` — the Mersenne-Twister PRNG (bitwise code on `>>> 0`
  unsigned 32-bit words becomes arithmetic on `ℕ` with explicit `% 2^32`),
  the tokenizer, the softmax/attention structure of the forward pass, the
  Adam learning-rate schedule of `trainStep` and the sampling loop of
  `generate`.
* the alternate embedded copy of the model in
  `src/components/TemperatureControl.tsx` diverges from `src/lib/gpt.ts` in
  the temperature clamp and the learning-rate floor; both variants are
  embedded where a claim refers to both.

JavaScript double-precision numbers are modelled as `ℚ`; the transcendental
`Math.exp` used by softmax is abstracted as a parameter `expf : ℚ → ℚ`
(the theorems assume only the facts `0 < expf x` and `expf 0 = 1`, which hold
for the real exponential).
-/

/-! ## Autodiff arena (src/lib/value.ts) -/

/-- One scalar graph node: the fields `data`, `_c0`, `_c1`, `_lg0`, `_lg1`,
`_nch` of the TypeScript `Value` class.  The mutable fields `grad` and `_gen`
live in `BackState` instead, because they are the only state `backward`
mutates. -/
structure Node where
  data : ℚ
  c0 : ℕ
  c1 : ℕ
  lg0 : ℚ
  lg1 : ℚ
  nch : ℕ
  deriving Repr, DecidableEq

instance : Inhabited Node := ⟨⟨0, 0, 0, 0, 0, 0⟩⟩

/-- Arena lookup; out-of-range indices yield a childless dummy node. -/
def getNode (g : List Node) (v : ℕ) : Node := g.getD v default

/-- Well-formedness: children are created before their parent, so child
indices are strictly smaller.  Every graph built by the `Value` operations
(`mkLeaf`, `mkAdd`, …) satisfies this. -/
def WFGraph (g : List Node) : Prop :=
  ∀ i, i < g.length →
    (1 ≤ (getNode g i).nch → (getNode g i).c0 < i) ∧
    ((getNode g i).nch = 2 → (getNode g i).c1 < i)

/-- Node constructors mirroring the `Value` operations of `value.ts`.
`mkLeaf` is `new Value(x)`. -/
def mkLeaf (g : List Node) (x : ℚ) : List Node :=
  g ++ [⟨x, 0, 0, 0, 0, 0⟩]

/-- `a.add(b)`: value `a+b`, local gradients `[1, 1]`. -/
def mkAdd (g : List Node) (i j : ℕ) : List Node :=
  g ++ [⟨(getNode g i).data + (getNode g j).data, i, j, 1, 1, 2⟩]

/-- `a.mul(b)`: value `a*b`, local gradients `[b, a]`. -/
def mkMul (g : List Node) (i j : ℕ) : List Node :=
  g ++ [⟨(getNode g i).data * (getNode g j).data, i, j,
        (getNode g j).data, (getNode g i).data, 2⟩]

/-- `a.neg()`: value `-a`, local gradient `[-1]`. -/
def mkNeg (g : List Node) (i : ℕ) : List Node :=
  g ++ [⟨-(getNode g i).data, i, 0, -1, 0, 1⟩]

/-- `a.relu()`: value `max 0 a`, local gradient `[+(a > 0)]`. -/
def mkRelu (g : List Node) (i : ℕ) : List Node :=
  g ++ [⟨max 0 (getNode g i).data, i, 0,
        if 0 < (getNode g i).data then 1 else 0, 0, 1⟩]

/-- `a.pow(e)` for an integer exponent: value `a^e`, local gradient
`[e * a^(e-1)]`.  (The source allows any float exponent; the exponents the
model uses with non-integer values also involve `Math.sqrt` and are outside
the rational fragment.) -/
def mkPowInt (g : List Node) (i : ℕ) (e : ℤ) : List Node :=
  g ++ [⟨(getNode g i).data ^ e, i, 0,
        (e : ℚ) * (getNode g i).data ^ (e - 1), 0, 1⟩]

/-- `a.sub(b) = a.add(b.neg())`: first the `neg` node, then the `add` node. -/
def mkSub (g : List Node) (i j : ℕ) : List Node :=
  mkAdd (mkNeg g j) i (g.length)

/-- `a.div(b) = a.mul(b.pow(-1))`: first the `pow` node, then the `mul`. -/
def mkDiv (g : List Node) (i j : ℕ) : List Node :=
  mkMul (mkPowInt g j (-1)) i (g.length)

/-- Sum of the local gradients along the (at most two) edges from `p` into
`v`; the amount one `+=` sweep over `p` adds to `v.grad` per unit of
`p.grad`. -/
def edgeW (g : List Node) (p v : ℕ) : ℚ :=
  (if 1 ≤ (getNode g p).nch ∧ (getNode g p).c0 = v then (getNode g p).lg0 else 0)
  + (if (getNode g p).nch = 2 ∧ (getNode g p).c1 = v then (getNode g p).lg1 else 0)

/-- Reachability from `r` through child edges (`Bool`-valued, decidable).
The `c0 < r` guards make the recursion well-founded; on well-formed graphs
they are implied by the child-count tests the source performs. -/
def reach (g : List Node) (r v : ℕ) : Bool :=
  (r == v)
  || (if h : 1 ≤ (getNode g r).nch ∧ (getNode g r).c0 < r then
        reach g (getNode g r).c0 v else false)
  || (if h2 : (getNode g r).nch = 2 ∧ (getNode g r).c1 < r then
        reach g (getNode g r).c1 v else false)
termination_by r
decreasing_by
  · exact h.2
  · exact h2.2

/-- The chain-rule adjoint `∂(value of r)/∂(value of v)`: the sum over all
directed paths from `r` to `v` of the products of the recorded local
derivatives along the path, by the decomposition at the path's first edge.
This is the mathematical "partial derivative of the root's value with respect
to the node's value" for the computation the graph encodes. -/
def pathSum (g : List Node) (r v : ℕ) : ℚ :=
  (if r = v then 1 else 0)
  + (if h : 1 ≤ (getNode g r).nch ∧ (getNode g r).c0 < r then
        (getNode g r).lg0 * pathSum g (getNode g r).c0 v else 0)
  + (if h2 : (getNode g r).nch = 2 ∧ (getNode g r).c1 < r then
        (getNode g r).lg1 * pathSum g (getNode g r).c1 v else 0)
termination_by r
decreasing_by
  · exact h.2
  · exact h2.2

/-- State of the `buildTopo` depth-first search: the per-node `_gen` markers
and the postorder list `topo`. -/
structure TopoState where
  marks : ℕ → ℕ
  order : List ℕ

/-- `buildTopo` of `Value.backward`: mark `v` with the current pass id `gen`,
recurse into unvisited children, append `v` after them (postorder). -/
def buildTopo (g : List Node) (gen : ℕ) (v : ℕ) (ts : TopoState) : TopoState :=
  if ts.marks v = gen then ts
  else
    let nd := getNode g v
    let ts1 : TopoState := ⟨Function.update ts.marks v gen, ts.order⟩
    let ts2 := if h : 1 ≤ nd.nch ∧ nd.c0 < v then buildTopo g gen nd.c0 ts1 else ts1
    let ts3 := if h2 : nd.nch = 2 ∧ nd.c1 < v then buildTopo g gen nd.c1 ts2 else ts2
    ⟨ts3.marks, ts3.order ++ [v]⟩
termination_by v
decreasing_by
  · exact h.2
  · exact h2.2

/-- One iteration of the reverse sweep at node `v`:
`c0.grad += lg0 * v.grad; c1.grad += lg1 * v.grad` guarded by the child
count, with `v.grad` read once before the updates. -/
def backStep (g : List Node) (v : ℕ) (grads : ℕ → ℚ) : ℕ → ℚ :=
  let nd := getNode g v
  let gv := grads v
  let g1 := if 1 ≤ nd.nch then
      Function.update grads nd.c0 (grads nd.c0 + nd.lg0 * gv) else grads
  if nd.nch = 2 then Function.update g1 nd.c1 (g1 nd.c1 + nd.lg1 * gv) else g1

/-- The reverse sweep over the topological list (the source iterates the
`topo` array from its last element to its first; here the reversed list is
consumed front to back). -/
def backPropagate (g : List Node) : List ℕ → (ℕ → ℚ) → (ℕ → ℚ)
  | [], grads => grads
  | v :: rest, grads => backPropagate g rest (backStep g v grads)

/-- The mutable state `backward` touches: all `_gen` markers, the global
`_gen` counter, and all gradient accumulators. -/
structure BackState where
  marks : ℕ → ℕ
  cnt : ℕ
  grads : ℕ → ℚ

/-- The topological list one call of `root.backward()` builds. -/
def backwardTopo (g : List Node) (root : ℕ) (st : BackState) : List ℕ :=
  (buildTopo g (st.cnt + 1) root ⟨st.marks, []⟩).order

/-- `Value.backward`: bump the pass id, build the topological order, seed
`root.grad = 1`, sweep the list in reverse accumulating child gradients. -/
def backwardPass (g : List Node) (root : ℕ) (st : BackState) : BackState :=
  let gen := st.cnt + 1
  let ts := buildTopo g gen root ⟨st.marks, []⟩
  ⟨ts.marks, gen,
   backPropagate g ts.order.reverse (Function.update st.grads root 1)⟩

/-! ## Softmax and attention structure (src/lib/gpt.ts) -/

/-- `Math.max(...logits)` for a nonempty list. -/
def maxList : List ℚ → ℚ
  | [] => 0
  | [x] => x
  | x :: y :: xs => max x (maxList (y :: xs))

/-- The denominator of the numerically-stable softmax: `vsum(exps)` after
subtracting the maximum logit.  `expf` abstracts `Math.exp`. -/
def softmaxDenom (expf : ℚ → ℚ) (logits : List ℚ) : ℚ :=
  (logits.map (fun v => expf (v - maxList logits))).sum

/-- `GPTModel.softmax`: subtract the maximum logit, exponentiate, divide each
term by the total. -/
def softmaxModel (expf : ℚ → ℚ) (logits : List ℚ) : List ℚ :=
  (logits.map (fun v => expf (v - maxList logits))).map
    (fun e => e / softmaxDenom expf logits)

/-- Scalar product `vsum(qH.map((qj, j) => qj.mul(kt[j])))`. -/
def dotQ (a b : List ℚ) : ℚ := (List.zipWith (· * ·) a b).sum

/-- The per-head attention loop of `GPTModel.forward`, one entry of `qks` per
forward call (query slice and key slice of that position).  Each call appends
its key to the cache *before* the attention logits are computed, exactly as
`keys[li].push(k)` precedes the `kH.map` in the source; the recorded row is
the softmax over the scaled dot products with every cached key. -/
def attnRows (expf : ℚ → ℚ) (scale : ℚ) :
    List (List ℚ × List ℚ) → List (List ℚ) → List (List ℚ)
  | [], _ => []
  | qk :: rest, cache =>
    let cache2 := cache ++ [qk.2]
    softmaxModel expf (cache2.map (fun kt => dotQ qk.1 kt * scale))
      :: attnRows expf scale rest cache2

/-! ## Tokenizer (createTokenizer in src/lib/gpt.ts)

Characters are modelled as their numeric code points (`ℕ`), strings as lists
of code points. -/

/-- Insert into an ascending list (model of `Array.prototype.sort` on the
distinct characters). -/
def insertAsc (c : ℕ) : List ℕ → List ℕ
  | [] => [c]
  | x :: xs => if c ≤ x then c :: x :: xs else x :: insertAsc c xs

/-- Insertion sort. -/
def sortAsc (l : List ℕ) : List ℕ := l.foldr insertAsc []

/-- `uchars`: the distinct characters of the corpus in sorted order
(`[...charSet].sort()`). -/
def sortedVocab (docs : List (List ℕ)) : List ℕ :=
  sortAsc (docs.flatten).dedup

/-- First index of `c` (model of `charToId` built from `uchars`, equivalently
`Array.prototype.indexOf`). -/
def idxOf (c : ℕ) : List ℕ → ℕ
  | [] => 0
  | x :: xs => if x = c then 0 else idxOf c xs + 1

/-- `charToId.get(ch)` — a JavaScript `Map.get`, which returns `undefined`
(modelled `none`) when the character is not a key. -/
def mapGet (uchars : List ℕ) (c : ℕ) : Option ℕ :=
  if c ∈ uchars then some (idxOf c uchars) else none

/-- `encode(s) = [BOS, ...Array.from(s, ch => charToId.get(ch)!), BOS]`, kept
at the raw JavaScript value level: the non-null assertion `!` performs no
runtime check, so an out-of-vocabulary character flows through as
`undefined`/`none`. -/
def encodeRaw (uchars : List ℕ) (s : List ℕ) : List (Option ℕ) :=
  some uchars.length :: (s.map (mapGet uchars) ++ [some uchars.length])

/-- The id list `encode` produces when every character is in the vocabulary:
the `BOS` marker (`uchars.length`), one id per character, the marker again. -/
def encodeIds (uchars : List ℕ) (s : List ℕ) : List ℕ :=
  uchars.length :: (s.map (fun c => idxOf c uchars) ++ [uchars.length])

/-- `decode(ids)`: drop marker ids, map the rest back to characters. -/
def decodeIds (uchars : List ℕ) (ids : List ℕ) : List ℕ :=
  (ids.filter (fun id => id != uchars.length)).map (fun id => uchars.getD id 0)

/-! ## Mersenne Twister PRNG (class MersenneTwister in src/lib/gpt.ts)

Unsigned 32-bit words are `ℕ` with explicit reduction `% 2^32`; every JS
bitwise result that the source pushes through `>>> 0` agrees with these
mod-`2^32` values. -/

def U32 : ℕ := 4294967296

/-- `Math.imul(a, b) >>> 0`. -/
def umul (a b : ℕ) : ℕ := (a * b) % U32

/-- The Mersenne Twister state: 624 words `mt`, the cursor `idx`, and the
cached second Gaussian sample (`_gaussNext`; of float type in the source,
held abstractly here and only ever reset by `seed`). -/
structure MTState where
  mt : ℕ → ℕ
  idx : ℕ
  gaussNext : Option ℚ

/-- The base-`2^32` key digits of the seed (`v & 0xffffffff`, then
`v = floor(v / 0x100000000)`; `[0]` when the seed is `0`). -/
def seedKey (n : ℕ) : List ℕ :=
  if n = 0 then [0] else Nat.digits U32 n

/-- First seeding loop: `mt[i] = imul(1812433253, mt[i-1] ^ (mt[i-1] >>> 30)) + i`. -/
def mtInitA (m : ℕ → ℕ) (i : ℕ) : ℕ → (ℕ → ℕ)
  | 0 => m
  | f + 1 =>
    mtInitA
      (Function.update m i
        ((umul 1812433253 (Nat.xor (m (i - 1)) (m (i - 1) / 2 ^ 30)) + i) % U32))
      (i + 1) f

/-- Second seeding loop (key mixing with multiplier 1664525). -/
def mixA (key : List ℕ) : ℕ → ((ℕ → ℕ) × ℕ × ℕ) → ((ℕ → ℕ) × ℕ × ℕ)
  | 0, s => s
  | f + 1, (m, i, j) =>
    let m1 := if 624 ≤ i then Function.update m 0 (m 623) else m
    let i1 := if 624 ≤ i then 1 else i
    let j1 := if key.length ≤ j then 0 else j
    let x := ((Nat.xor (m1 i1)
        (umul (Nat.xor (m1 (i1 - 1)) (m1 (i1 - 1) / 2 ^ 30)) 1664525))
        + key.getD j1 0 + j1) % U32
    mixA key f (Function.update m1 i1 x, i1 + 1, j1 + 1)

/-- Third seeding loop (multiplier 1566083941, subtracting the index). -/
def mixB : ℕ → ((ℕ → ℕ) × ℕ) → ((ℕ → ℕ) × ℕ)
  | 0, s => s
  | f + 1, (m, i) =>
    let m1 := if 624 ≤ i then Function.update m 0 (m 623) else m
    let i1 := if 624 ≤ i then 1 else i
    let x := ((Nat.xor (m1 i1)
        (umul (Nat.xor (m1 (i1 - 1)) (m1 (i1 - 1) / 2 ^ 30)) 1566083941))
        + (U32 - i1)) % U32
    mixB f (Function.update m1 i1 x, i1 + 1)

/-- `seed(n)`: the full deterministic reinitialization, ending with
`mt[0] = 0x80000000`, `idx = 624`, `_gaussNext = null`. -/
def mtSeedState (n : ℕ) : MTState :=
  let m0 := Function.update (fun _ => 0) 0 19650218
  let m1 := mtInitA m0 1 623
  let key := seedKey n
  let s2 := mixA key (max 624 key.length) (m1, 1, 0)
  let s3 := mixB 623 (s2.1, s2.2.1)
  ⟨Function.update s3.1 0 2147483648, 624, none⟩

/-- One in-place step of the twist at index `k`. -/
def twistAt (m : ℕ → ℕ) (k : ℕ) : ℕ → ℕ :=
  let y := Nat.lor (Nat.land (m k) 2147483648) (Nat.land (m ((k + 1) % 624)) 2147483647)
  Function.update m k
    (Nat.xor (Nat.xor (m ((k + 397) % 624)) (y / 2))
      (if y % 2 = 1 then 2567483615 else 0))

/-- The twist loop over `k = 0 … 623`, sequentially in place. -/
def twistLoop (m : ℕ → ℕ) (k : ℕ) : ℕ → (ℕ → ℕ)
  | 0 => m
  | f + 1 => twistLoop (twistAt m k) (k + 1) f

def mtTwist (m : ℕ → ℕ) : ℕ → ℕ := twistLoop m 0 624

/-- The tempering of `int32()` (`<<` results reduced mod `2^32` as the JS
int32 coercion does at the bit level). -/
def temper (y : ℕ) : ℕ :=
  let y1 := Nat.xor y (y / 2 ^ 11)
  let y2 := Nat.xor y1 (Nat.land ((y1 * 2 ^ 7) % U32) 2636928640)
  let y3 := Nat.xor y2 (Nat.land ((y2 * 2 ^ 15) % U32) 4022730752)
  Nat.xor y3 (y3 / 2 ^ 18)

/-- `int32()`: twist when the cursor is exhausted, then temper the next word. -/
def mtNext32 (st : MTState) : ℕ × MTState :=
  let st2 := if 624 ≤ st.idx then MTState.mk (mtTwist st.mt) 0 st.gaussNext else st
  (temper (st2.mt st2.idx), ⟨st2.mt, st2.idx + 1, st2.gaussNext⟩)

/-- `random()`: `((int32() >>> 5) * 67108864 + (int32() >>> 6)) / 2^53`. -/
def mtRandom (st : MTState) : ℚ × MTState :=
  let p1 := mtNext32 st
  let p2 := mtNext32 p1.2
  ((((p1.1 / 2 ^ 5) * 67108864 + p2.1 / 2 ^ 6 : ℕ) : ℚ) / 9007199254740992, p2.2)

/-- `32 - Math.clz32(x)` (the bit length of `x`) for `1 ≤ x < 2^32`. -/
def bitLen (x : ℕ) : ℕ := if x = 0 then 0 else Nat.log2 x + 1

/-- The rejection loop of `shuffle`: draw `int32() >>> (32 - k)` until the
draw is `≤ i`.  The source's `while` loop terminates only probabilistically;
the model bounds it by a fuel count (the value after fuel exhaustion is never
reached for any fuel-bounded prefix that accepts). -/
def drawBelow (st : MTState) (i : ℕ) : ℕ → ℕ × MTState
  | 0 => (0, st)
  | f + 1 =>
    let p := mtNext32 st
    let r := p.1 / 2 ^ (32 - bitLen (i + 1))
    if i < r then drawBelow p.2 i f else (r, p.2)

/-- Swap two list positions (the destructuring swap of `shuffle`). -/
def listSwap (l : List (List ℕ)) (i j : ℕ) : List (List ℕ) :=
  (l.set i (l.getD j [])).set j (l.getD i [])

/-- The Fisher–Yates loop of `shuffle`, `i` descending from `len-1` to `1`. -/
def mtShuffleGo : ℕ → List (List ℕ) × MTState → List (List ℕ) × MTState
  | 0, s => s
  | i + 1, (l, st) =>
    let p := drawBelow st (i + 1) 64
    mtShuffleGo i (listSwap l (i + 1) p.1, p.2)

def mtShuffle (st : MTState) (l : List (List ℕ)) : List (List ℕ) × MTState :=
  mtShuffleGo (l.length - 1) (l, st)

/-- The deterministic construction prefix of `new GPTModel(seed)`: seed the
PRNG, shuffle the corpus, build the sorted tokenizer vocabulary.  (The
Gaussian parameter draws that follow consume this state; they are
float-valued and abstracted, but are functions of this state alone.) -/
def modelConstruct (seed : ℕ) (names : List (List ℕ)) :
    MTState × List (List ℕ) × List ℕ :=
  let st0 := mtSeedState seed
  let p := mtShuffle st0 names
  (p.2, p.1, sortedVocab p.1)

/-! ## Weighted categorical sampling (MersenneTwister.choices) -/

/-- The cumulative-sum array `cum`. -/
def cumsum (l : List ℚ) : List ℚ :=
  (List.range l.length).map (fun i => ((l.take (i + 1)).sum))

/-- The binary search of `choices` (`while (lo < hi) …`), with fuel for
totality; `cum.length` iterations always suffice since the interval shrinks
every step. -/
def bisect (cum : List ℚ) (x : ℚ) : ℕ → ℕ → ℕ → ℕ
  | 0, lo, _ => lo
  | f + 1, lo, hi =>
    if lo < hi then
      let mid := (lo + hi) / 2
      if x < cum.getD mid 0 then bisect cum x f lo mid
      else bisect cum x f (mid + 1) hi
    else lo

/-- `choices(population, weights)` as a function of the uniform draw
`r = random()`: cumulative sums, `x = r * cum[cum.length - 1]`, binary
search, return `population[lo]`.  The source contains no error path: it
always returns normally. -/
def choicesNat (pop : List ℕ) (weights : List ℚ) (r : ℚ) : ℕ :=
  let cum := cumsum weights
  let x := r * cum.getD (cum.length - 1) 0
  pop.getD (bisect cum x cum.length 0 (cum.length - 1)) 0

/-- `choices` with the draw taken from the threaded PRNG state. -/
def choicesM (st : MTState) (pop : List ℕ) (weights : List ℚ) : ℕ × MTState :=
  let p := mtRandom st
  (choicesNat pop weights p.1, p.2)

/-! ## Trainer and generator scalar schedules -/

/-- `this.learningRate` of the constructor. -/
def learningRate0 : ℚ := 1 / 100

/-- The per-step learning rate of `trainStep` in `src/lib/gpt.ts`:
`lrT = learningRate * (1 - step / numSteps)` — no floor. -/
def lrPrimary (lr : ℚ) (step numSteps : ℕ) : ℚ :=
  lr * (1 - (step : ℚ) / (numSteps : ℚ))

/-- The per-step learning rate of the alternate embedded copy of `trainStep`
in `TemperatureControl.tsx`: `lrT = learningRate * Math.max(0.01, 1 - step / numSteps)`. -/
def lrAlternate (lr : ℚ) (step numSteps : ℕ) : ℚ :=
  lr * max (1 / 100) (1 - (step : ℚ) / (numSteps : ℚ))

/-- The divisor `generate` in `src/lib/gpt.ts` applies to every logit:
`l.div(temperature)` — the raw temperature argument, no clamp. -/
def tempDivisorPrimary (t : ℚ) : ℚ := t

/-- The divisor of the alternate embedded copy of `generate`:
`l.div(Math.max(temperature, 0.01))`. -/
def tempDivisorAlternate (t : ℚ) : ℚ := max t (1 / 100)

/-! ## Generation loop (GPTModel.generate) -/

/-- The sampling loop of `generate`: starting from the `BOS` token at
position 0, sample `choices(tokenPool, weights)` each step, stop on
re-sampling `BOS` or after `len` steps, collect the sampled ids.  The
per-position probability vectors are abstracted by `w pos tok` (the softmax
of the temperature-scaled logits of the forward pass at position `pos` with
input token `tok`); the PRNG state is threaded exactly as in the source. -/
def genLoop (V BOS : ℕ) (w : ℕ → ℕ → List ℚ) :
    ℕ → ℕ → ℕ → MTState → List ℕ
  | _, _, 0, _ => []
  | cur, pos, rem + 1, st =>
    let p := choicesM st (List.range V) (w pos cur)
    if p.1 = BOS then []
    else p.1 :: genLoop V BOS w p.1 (pos + 1) rem p.2

/-- `generate(temperature, maxLen?)` at the token level: a fresh loop scoped
to this call, `len = maxLen ?? blockSize`, first input token `BOS`. -/
def generateTokens (V blockSize : ℕ) (maxLen : Option ℕ)
    (w : ℕ → ℕ → List ℚ) (st : MTState) : List ℕ :=
  genLoop V (V - 1) w (V - 1) 0 (maxLen.getD blockSize) st

/-- The children of `u` recorded in the arena all occur in the list `P`. -/
def childrenIn (g : List Node) (u : ℕ) (P : List ℕ) : Prop :=
  (1 ≤ (getNode g u).nch → (getNode g u).c0 ∈ P) ∧
  ((getNode g u).nch = 2 → (getNode g u).c1 ∈ P)

/-- `L` lists children before parents (the postorder property of the
`topo` array): at every split of `L`, the children of the split point
already occur in the prefix. -/
def CB (g : List Node) (L : List ℕ) : Prop :=
  ∀ L1 u L2, L = L1 ++ u :: L2 → childrenIn g u L1

/-! # Theorems -/

/-! ## Softmax lemmas (shared by C2 and C10) -/

theorem maxList_mem : ∀ l : List ℚ, l ≠ [] → maxList l ∈ l := by
  intro l
  induction l with
  | nil => intro h; exact absurd rfl h
  | cons x xs ih =>
    intro _
    cases xs with
    | nil => simp [maxList]
    | cons y ys =>
      rcases max_choice x (maxList (y :: ys)) with h | h
      · simp [maxList, h]
      · simp only [maxList, h]
        exact List.mem_cons_of_mem x (ih (by simp))

theorem le_maxList : ∀ l : List ℚ, ∀ x ∈ l, x ≤ maxList l := by
  intro l
  induction l with
  | nil => intro x hx; simp at hx
  | cons a xs ih =>
    intro x hx
    cases xs with
    | nil =>
      simp at hx
      simp [maxList, hx]
    | cons y ys =>
      rcases List.mem_cons.mp hx with h | h
      · simp [maxList, h]
      · exact le_trans (ih x h) (by simp [maxList])

theorem sum_map_div (l : List ℚ) (c : ℚ) :
    (l.map (fun e => e / c)).sum = l.sum / c := by
  induction l with
  | nil => simp
  | cons a xs ih => simp [ih, add_div]

theorem softmaxDenom_pos (expf : ℚ → ℚ) (logits : List ℚ)
    (hexp : ∀ x, 0 < expf x) (hne : logits ≠ []) :
    0 < softmaxDenom expf logits := by
  apply List.sum_pos
  · intro x hx
    rcases List.mem_map.mp hx with ⟨v, _, rfl⟩
    exact hexp _
  · simpa using hne

theorem softmaxDenom_ge_one (expf : ℚ → ℚ) (logits : List ℚ)
    (hexp : ∀ x, 0 < expf x) (h0 : expf 0 = 1) (hne : logits ≠ []) :
    1 ≤ softmaxDenom expf logits := by
  have hm : maxList logits ∈ logits := maxList_mem logits hne
  have hmem : (1 : ℚ) ∈ logits.map (fun v => expf (v - maxList logits)) := by
    refine List.mem_map.mpr ⟨maxList logits, hm, ?_⟩
    simp [h0]
  exact List.single_le_sum (fun x hx => by
    rcases List.mem_map.mp hx with ⟨v, _, rfl⟩
    exact le_of_lt (hexp _)) 1 hmem

theorem softmax_sum_one (expf : ℚ → ℚ) (logits : List ℚ)
    (hexp : ∀ x, 0 < expf x) (hne : logits ≠ []) :
    (softmaxModel expf logits).sum = 1 := by
  unfold softmaxModel
  rw [sum_map_div]
  exact div_self (ne_of_gt (softmaxDenom_pos expf logits hexp hne))

theorem softmax_mem_bounds (expf : ℚ → ℚ) (logits : List ℚ)
    (hexp : ∀ x, 0 < expf x) (hne : logits ≠ []) :
    ∀ w ∈ softmaxModel expf logits, 0 < w ∧ w ≤ 1 := by
  intro w hw
  unfold softmaxModel at hw
  rcases List.mem_map.mp hw with ⟨e, he, rfl⟩
  have hdpos := softmaxDenom_pos expf logits hexp hne
  have hepos : 0 < e := by
    rcases List.mem_map.mp he with ⟨v, _, rfl⟩
    exact hexp _
  constructor
  · exact div_pos hepos hdpos
  · rw [div_le_one hdpos]
    exact List.single_le_sum (fun x hx => by
      rcases List.mem_map.mp hx with ⟨v, _, rfl⟩
      exact le_of_lt (hexp _)) e he

/-- C10: the softmax denominator is at least 1 (the maximum logit contributes
`expf 0 = 1` after max-subtraction), so the division inside softmax is never
by zero, and every output weight lies in `[0, 1]`.  `expf` abstracts
`Math.exp`, which is positive and maps `0` to `1`. -/
theorem softmax_denom_ge_one_outputs_unit (expf : ℚ → ℚ) (logits : List ℚ)
    (hexp : ∀ x, 0 < expf x) (h0 : expf 0 = 1) (hne : logits ≠ []) :
    1 ≤ softmaxDenom expf logits ∧ softmaxDenom expf logits ≠ 0 ∧
      ∀ w ∈ softmaxModel expf logits, 0 ≤ w ∧ w ≤ 1 := by
  refine ⟨softmaxDenom_ge_one expf logits hexp h0 hne,
    ne_of_gt (softmaxDenom_pos expf logits hexp hne), ?_⟩
  intro w hw
  rcases softmax_mem_bounds expf logits hexp hne w hw with ⟨h1, h2⟩
  exact ⟨le_of_lt h1, h2⟩

/-- Witness for C10 at the one-entry logit list `[0]` with the constant-one
exponential. -/
theorem softmax_denom_ge_one_outputs_unit_witness :
    1 ≤ softmaxDenom (fun _ => 1) [0] ∧ softmaxDenom (fun _ => 1) [0] ≠ 0 ∧
      ∀ w ∈ softmaxModel (fun _ => 1) [0], 0 ≤ w ∧ w ≤ 1 :=
  softmax_denom_ge_one_outputs_unit (fun _ => 1) [0]
    (fun _ => one_pos) rfl (by simp)

/-! ## C2: causal attention rows -/

theorem attnRows_length (expf : ℚ → ℚ) (scale : ℚ) :
    ∀ (qks : List (List ℚ × List ℚ)) (cache : List (List ℚ)),
      (attnRows expf scale qks cache).length = qks.length := by
  intro qks
  induction qks with
  | nil => intro cache; simp [attnRows]
  | cons qk rest ih => intro cache; simp [attnRows, ih]

theorem attnRows_getD (expf : ℚ → ℚ) (scale : ℚ) :
    ∀ (qks : List (List ℚ × List ℚ)) (cache : List (List ℚ)) (p : ℕ),
      p < qks.length →
      (attnRows expf scale qks cache).getD p [] =
        softmaxModel expf
          ((cache ++ (qks.take (p + 1)).map Prod.snd).map
            (fun kt => dotQ (qks.getD p ([], [])).1 kt * scale)) := by
  intro qks
  induction qks with
  | nil => intro cache p hp; simp at hp
  | cons qk rest ih =>
    intro cache p hp
    cases p with
    | zero => simp [attnRows]
    | succ p =>
      have hp' : p < rest.length := by simpa using hp
      simp only [attnRows, List.getD_cons_succ, List.take_succ_cons, List.map_cons]
      rw [ih (cache ++ [qk.2]) p hp']
      simp [List.append_assoc]

/-- C2: in the per-head attention loop, the row recorded for query position
`p` (0-indexed) is the softmax over exactly the `p + 1` cached key positions
`0 … p` — the current key having been appended before attention reads the
cache — so the row has length `p + 1` (no entry exists for any future key
position) and its entries sum to exactly 1. -/
theorem attention_row_causal (expf : ℚ → ℚ) (scale : ℚ)
    (qks : List (List ℚ × List ℚ)) (p : ℕ)
    (hexp : ∀ x, 0 < expf x) (hp : p < qks.length) :
    (attnRows expf scale qks []).length = qks.length ∧
    ((attnRows expf scale qks []).getD p []).length = p + 1 ∧
    ((attnRows expf scale qks []).getD p []).sum = 1 ∧
    (attnRows expf scale qks []).getD p [] =
      softmaxModel expf
        (((qks.take (p + 1)).map Prod.snd).map
          (fun kt => dotQ (qks.getD p ([], [])).1 kt * scale)) := by
  have hrow := attnRows_getD expf scale qks [] p hp
  simp only [List.nil_append] at hrow
  have hlen : (((qks.take (p + 1)).map Prod.snd).map
      (fun kt => dotQ (qks.getD p ([], [])).1 kt * scale)).length = p + 1 := by
    simp [List.length_take]
    omega
  have hne : (((qks.take (p + 1)).map Prod.snd).map
      (fun kt => dotQ (qks.getD p ([], [])).1 kt * scale)) ≠ [] := by
    intro h
    rw [h] at hlen
    simp at hlen
  refine ⟨attnRows_length expf scale qks [], ?_, ?_, hrow⟩
  · rw [hrow]
    simpa [softmaxModel] using hlen
  · rw [hrow]
    exact softmax_sum_one expf _ hexp hne

/-- Witness for C2: a single forward call (query position 0) with the
constant-one exponential. -/
theorem attention_row_causal_witness :
    (attnRows (fun _ => 1) 1 [([1], [1])] []).length = 1 ∧
    ((attnRows (fun _ => 1) 1 [([1], [1])] []).getD 0 []).length = 0 + 1 ∧
    ((attnRows (fun _ => 1) 1 [([1], [1])] []).getD 0 []).sum = 1 ∧
    (attnRows (fun _ => 1) 1 [([1], [1])] []).getD 0 [] =
      softmaxModel (fun _ => 1)
        ((([([1], [1])].take (0 + 1)).map Prod.snd).map
          (fun kt => dotQ (([([1], [1])].getD 0 ([], [])).1 : List ℚ) kt * 1)) :=
  attention_row_causal (fun _ => 1) 1 [([1], [1])] 0 (fun _ => one_pos) (by decide)

/-! ## C3 / C5: tokenizer -/

theorem insertAsc_perm (c : ℕ) : ∀ l : List ℕ, List.Perm (insertAsc c l) (c :: l) := by
  intro l
  induction l with
  | nil => simp [insertAsc]
  | cons x xs ih =>
    by_cases h : c ≤ x
    · simp [insertAsc, h]
    · simp only [insertAsc, if_neg h]
      exact (ih.cons x).trans (List.Perm.swap c x xs)

theorem sortAsc_perm : ∀ l : List ℕ, List.Perm (sortAsc l) l := by
  intro l
  induction l with
  | nil => simp [sortAsc]
  | cons a xs ih =>
    have : sortAsc (a :: xs) = insertAsc a (sortAsc xs) := rfl
    rw [this]
    exact (insertAsc_perm a (sortAsc xs)).trans (ih.cons a)

theorem sortedVocab_mem (docs : List (List ℕ)) (c : ℕ) :
    c ∈ sortedVocab docs ↔ c ∈ docs.flatten := by
  unfold sortedVocab
  rw [(sortAsc_perm _).mem_iff, List.mem_dedup]

theorem sortedVocab_nodup (docs : List (List ℕ)) : (sortedVocab docs).Nodup :=
  ((sortAsc_perm _).nodup_iff).mpr (List.nodup_dedup _)

theorem idxOf_lt_length (c : ℕ) : ∀ l : List ℕ, c ∈ l → idxOf c l < l.length := by
  intro l
  induction l with
  | nil => intro h; simp at h
  | cons x xs ih =>
    intro hc
    by_cases h : x = c
    · simp [idxOf, h]
    · have : c ∈ xs := by
        rcases List.mem_cons.mp hc with h1 | h1
        · exact absurd h1.symm h
        · exact h1
      simp only [idxOf, if_neg h, List.length_cons]
      exact Nat.succ_lt_succ (ih this)

theorem getD_idxOf (c : ℕ) : ∀ l : List ℕ, c ∈ l → l.getD (idxOf c l) 0 = c := by
  intro l
  induction l with
  | nil => intro h; simp at h
  | cons x xs ih =>
    intro hc
    by_cases h : x = c
    · simp [idxOf, h]
    · have : c ∈ xs := by
        rcases List.mem_cons.mp hc with h1 | h1
        · exact absurd h1.symm h
        · exact h1
      simp only [idxOf, if_neg h, List.getD_cons_succ]
      exact ih this

/-- C3: for every string over the tokenizer's vocabulary, `encode` produces
the start/end marker id, one id per character, then the marker id again (at
the raw value level, no `undefined` appears), and `decode` of that id list
drops the markers and maps the ids back to the characters in order, so
`decode (encode s) = s`. -/
theorem tokenizer_roundtrip (docs : List (List ℕ)) (s : List ℕ)
    (hs : ∀ c ∈ s, c ∈ docs.flatten) :
    encodeRaw (sortedVocab docs) s = (encodeIds (sortedVocab docs) s).map some ∧
    decodeIds (sortedVocab docs) (encodeIds (sortedVocab docs) s) = s := by
  have hmem : ∀ c ∈ s, c ∈ sortedVocab docs := by
    intro c hc
    exact (sortedVocab_mem docs c).mpr (hs c hc)
  constructor
  · unfold encodeRaw encodeIds
    simp only [List.map_cons, List.map_append, List.map_map, List.map]
    congr 1
    congr 1
    apply List.map_congr_left
    intro c hc
    simp [mapGet, hmem c hc, Function.comp]
  · unfold decodeIds encodeIds
    have hkeep : ∀ c ∈ s, idxOf c (sortedVocab docs) ≠ (sortedVocab docs).length :=
      fun c hc => Nat.ne_of_lt (idxOf_lt_length c _ (hmem c hc))
    have h1 : ∀ a ∈ s.map (fun c => idxOf c (sortedVocab docs)),
        (a != (sortedVocab docs).length) = true := by
      intro a ha
      rcases List.mem_map.mp ha with ⟨c, hc, rfl⟩
      simpa using hkeep c hc
    have hfilter :
        ((sortedVocab docs).length :: (s.map (fun c => idxOf c (sortedVocab docs))
            ++ [(sortedVocab docs).length])).filter
          (fun id => id != (sortedVocab docs).length)
          = s.map (fun c => idxOf c (sortedVocab docs)) := by
      simp only [List.filter_cons, bne_self_eq_false, Bool.false_eq_true, if_false,
        List.filter_append, List.filter_eq_self.mpr h1, List.filter_nil]
      simp
    rw [hfilter, List.map_map]
    have : ∀ c ∈ s,
        ((fun id => (sortedVocab docs).getD id 0) ∘ fun c => idxOf c (sortedVocab docs)) c = c := by
      intro c hc
      simp only [Function.comp]
      exact getD_idxOf c _ (hmem c hc)
    rw [List.map_congr_left this]
    simp

/-- Witness for C3 at the corpus `[[3, 1]]` and string `[1, 3, 3]`. -/
theorem tokenizer_roundtrip_witness :
    encodeRaw (sortedVocab [[3, 1]]) [1, 3, 3]
        = (encodeIds (sortedVocab [[3, 1]]) [1, 3, 3]).map some ∧
    decodeIds (sortedVocab [[3, 1]]) (encodeIds (sortedVocab [[3, 1]]) [1, 3, 3])
        = [1, 3, 3] :=
  tokenizer_roundtrip [[3, 1]] [1, 3, 3] (by decide)

/-- C5 evaluated: encoding a string with a character outside the trained
vocabulary does NOT fail — `Map.get` returns `undefined` (`none`), the
non-null assertion performs no runtime check, and `encode` returns the id
sequence `[BOS, undefined, BOS]`.  Corpus `["ab"]` (code points 97, 98),
input `"c"` (99). -/
theorem encode_out_of_vocab_silent :
    encodeRaw (sortedVocab [[97, 98]]) [99] = [some 2, none, some 2] := by decide

/-! ## C4: all-zero weight vector in choices -/

theorem cumsum_getD_zero (l : List ℚ) (hl : ∀ x ∈ l, x = 0) :
    ∀ i, (cumsum l).getD i 0 = 0 := by
  intro i
  by_cases hi : i < (cumsum l).length
  · have hlen : (cumsum l).length = l.length := by simp [cumsum]
    rw [List.getD_eq_getElem _ _ hi]
    simp only [cumsum, List.getElem_map, List.getElem_range]
    exact List.sum_eq_zero (fun x hx => hl x (List.mem_of_mem_take hx))
  · exact List.getD_eq_default _ _ (Nat.le_of_not_lt hi)

theorem bisect_allzero (cum : List ℚ) (hcum : ∀ i, cum.getD i 0 = 0) :
    ∀ (fuel lo hi : ℕ), hi - lo < fuel → lo ≤ hi →
      bisect cum 0 fuel lo hi = hi := by
  intro fuel
  induction fuel with
  | zero => intro lo hi h _; omega
  | succ f ih =>
    intro lo hi hfuel hle
    by_cases h : lo < hi
    · have hmid_lo : lo ≤ (lo + hi) / 2 :=
        (Nat.le_div_iff_mul_le (by norm_num)).mpr (by omega)
      have hmid_hi : (lo + hi) / 2 < hi :=
        (Nat.div_lt_iff_lt_mul (by norm_num)).mpr (by omega)
      simp only [bisect, if_pos h, hcum, lt_self_iff_false, if_neg (lt_irrefl (0 : ℚ))]
      exact ih ((lo + hi) / 2 + 1) hi (by omega) (by omega)
    · have heq : lo = hi := by omega
      simp [bisect, if_neg h, heq]

/-- Supporting lemma for C4: on an all-zero weight vector, `choices` raises
nothing and returns the LAST element of the population (the binary search
always moves right since `x = random() * 0 = 0` is never `< 0`). -/
theorem choices_allzero_general (pop : List ℕ) (weights : List ℚ)
    (hw : ∀ x ∈ weights, x = 0) (hne : weights ≠ []) (r : ℚ) :
    choicesNat pop weights r = pop.getD (weights.length - 1) 0 := by
  have hlen : (cumsum weights).length = weights.length := by simp [cumsum]
  have hx : r * (cumsum weights).getD ((cumsum weights).length - 1) 0 = 0 := by
    rw [cumsum_getD_zero weights hw]; ring
  show pop.getD
      (bisect (cumsum weights)
        (r * (cumsum weights).getD ((cumsum weights).length - 1) 0)
        (cumsum weights).length 0 ((cumsum weights).length - 1)) 0
      = pop.getD (weights.length - 1) 0
  rw [hx, hlen]
  congr 1
  have hpos : 1 ≤ weights.length := List.length_pos.mpr hne
  exact bisect_allzero (cumsum weights) (cumsum_getD_zero weights hw)
    weights.length 0 (weights.length - 1) (by omega) (by omega)

/-- C4 evaluated at a concrete failing input: `choices([0,1,2], [0,0,0])`
with the uniform draw `1/2` silently returns `2` — the last population
index — instead of raising an error for the degenerate all-zero weight
vector. -/
theorem choices_allzero_returns_last :
    choicesNat [0, 1, 2] [0, 0, 0] (1 / 2) = 2 := by
  rw [choices_allzero_general [0, 1, 2] [0, 0, 0] (by simp) (by simp) (1 / 2)]
  rfl

/-! ## C6 / C7: temperature divisor and learning-rate schedule -/

/-- C6 counterexample: in `src/lib/gpt.ts` the divisor applied to the logits
in `generate` is the raw temperature argument — at temperature `0` the
divisor is `0` (not a positive clamped value), and at `-1` it is negative. -/
theorem temperature_divisor_counterexample :
    tempDivisorPrimary 0 = 0 ∧ ¬ 0 < tempDivisorPrimary 0 ∧
      tempDivisorPrimary (-1) < 0 := by
  refine ⟨rfl, ?_, ?_⟩ <;> norm_num [tempDivisorPrimary]

/-- C6 amended: only the alternate embedded copy of `generate`
(`TemperatureControl.tsx`) clamps the divisor, to
`max temperature 0.01`, which is positive for every temperature (so that
copy never divides by zero or a negative number); the primary
`src/lib/gpt.ts` divides by the unclamped temperature argument. -/
theorem temperature_divisor_amended :
    (∀ t : ℚ, 0 < tempDivisorAlternate t) ∧ ∀ t : ℚ, tempDivisorPrimary t = t := by
  constructor
  · intro t
    exact lt_of_lt_of_le (by norm_num) (le_max_right t (1 / 100))
  · intro t
    rfl

/-- C7 counterexample: the per-step learning rate of `trainStep` in
`src/lib/gpt.ts`, `lr * (1 - step / numSteps)`, is negative once the step
count exceeds `numSteps` (here step 2000 against target 1000). -/
theorem learning_rate_counterexample :
    lrPrimary learningRate0 2000 1000 < 0 := by
  norm_num [lrPrimary, learningRate0]

/-- C7 amended: only the alternate embedded copy of `trainStep` decays the
learning rate toward a positive floor (`lr * max 0.01 (1 - step/numSteps)`,
positive for every step whenever the base rate is positive); the primary
`src/lib/gpt.ts` uses `lr * (1 - step/numSteps)` with no floor, which is
negative for every step count beyond the target. -/
theorem learning_rate_amended :
    (∀ (lr : ℚ) (step numSteps : ℕ), 0 < lr → 0 < lrAlternate lr step numSteps) ∧
    (∀ step numSteps : ℕ, 0 < numSteps → numSteps < step →
      lrPrimary learningRate0 step numSteps < 0) := by
  constructor
  · intro lr step numSteps hlr
    exact mul_pos hlr (lt_of_lt_of_le (by norm_num) (le_max_left _ _))
  · intro step numSteps hn hs
    have hnq : (0 : ℚ) < numSteps := by exact_mod_cast hn
    have h1 : (1 : ℚ) < (step : ℚ) / numSteps :=
      (one_lt_div hnq).mpr (by exact_mod_cast hs)
    have h2 : (1 : ℚ) - (step : ℚ) / numSteps < 0 := by linarith
    exact mul_neg_of_pos_of_neg (by norm_num [learningRate0]) h2

/-- Witness for the amended C7 at base rate `0.01`, step 2000, target 1000. -/
theorem learning_rate_amended_witness :
    0 < lrAlternate learningRate0 2000 1000 ∧
      lrPrimary learningRate0 2000 1000 < 0 :=
  ⟨learning_rate_amended.1 learningRate0 2000 1000 (by norm_num [learningRate0]),
   learning_rate_amended.2 2000 1000 (by norm_num) (by norm_num)⟩

/-! ## C8: bounds on the generation loop -/

theorem getD_range (V i : ℕ) (h : i < V) : (List.range V).getD i 0 = i := by
  rw [List.getD_eq_getElem _ _ (by simpa using h)]
  simp

theorem bisect_le (cum : List ℚ) (x : ℚ) :
    ∀ (fuel lo hi : ℕ), lo ≤ hi → bisect cum x fuel lo hi ≤ hi := by
  intro fuel
  induction fuel with
  | zero => intro lo hi h; simpa [bisect] using h
  | succ f ih =>
    intro lo hi hle
    by_cases h : lo < hi
    · have hmid_lo : lo ≤ (lo + hi) / 2 :=
        (Nat.le_div_iff_mul_le (by norm_num)).mpr (by omega)
      have hmid_hi : (lo + hi) / 2 < hi :=
        (Nat.div_lt_iff_lt_mul (by norm_num)).mpr (by omega)
      simp only [bisect, if_pos h]
      by_cases hx : x < cum.getD ((lo + hi) / 2) 0
      · simp only [if_pos hx]
        exact le_trans (ih lo ((lo + hi) / 2) hmid_lo) (by omega)
      · simp only [if_neg hx]
        exact ih ((lo + hi) / 2 + 1) hi (by omega)
    · simpa [bisect, if_neg h] using hle

theorem choicesNat_range_lt (V : ℕ) (weights : List ℚ) (r : ℚ) (hV : 1 ≤ V) :
    choicesNat (List.range V) weights r < V := by
  show (List.range V).getD
      (bisect (cumsum weights)
        (r * (cumsum weights).getD ((cumsum weights).length - 1) 0)
        (cumsum weights).length 0 ((cumsum weights).length - 1)) 0 < V
  generalize bisect (cumsum weights)
      (r * (cumsum weights).getD ((cumsum weights).length - 1) 0)
      (cumsum weights).length 0 ((cumsum weights).length - 1) = idx
  by_cases h : idx < V
  · rw [getD_range V idx h]; exact h
  · have hle : (List.range V).length ≤ idx := by
      simpa using Nat.le_of_not_lt h
    rw [List.getD_eq_default _ _ hle]
    exact hV

theorem genLoop_bounded (V : ℕ) (w : ℕ → ℕ → List ℚ) (hV : 1 ≤ V) :
    ∀ (rem cur pos : ℕ) (st : MTState),
      (genLoop V (V - 1) w cur pos rem st).length ≤ rem ∧
      ∀ t ∈ genLoop V (V - 1) w cur pos rem st, t < V ∧ t ≠ V - 1 := by
  intro rem
  induction rem with
  | zero => intro cur pos st; simp [genLoop]
  | succ rem ih =>
    intro cur pos st
    simp only [genLoop]
    by_cases h : (choicesM st (List.range V) (w pos cur)).1 = V - 1
    · simp [h]
    · simp only [if_neg h, List.length_cons, List.mem_cons]
      have hlt : (choicesM st (List.range V) (w pos cur)).1 < V := by
        unfold choicesM
        exact choicesNat_range_lt V _ _ hV
      refine ⟨Nat.succ_le_succ (ih _ _ _).1, ?_⟩
      intro t ht
      rcases ht with rfl | ht
      · exact ⟨hlt, h⟩
      · exact (ih _ _ _).2 t ht

/-- C8: `generate` with no `maxLen` argument starts from the marker token and
runs at most `blockSize` sampling steps, stopping early on re-sampling the
marker; the returned id list has length at most `blockSize`, contains no
marker id (`V - 1`), and every id is a valid vocabulary id `< V`. -/
theorem generate_tokens_bounded (V blockSize : ℕ) (w : ℕ → ℕ → List ℚ)
    (st : MTState) (hV : 1 ≤ V) :
    (generateTokens V blockSize none w st).length ≤ blockSize ∧
    ∀ t ∈ generateTokens V blockSize none w st, t < V ∧ t ≠ V - 1 := by
  unfold generateTokens
  simpa using genLoop_bounded V w hV blockSize (V - 1) 0 st

/-- Witness for C8 with vocabulary size 2, context size 3, uniform
probability table and the all-zero PRNG state. -/
theorem generate_tokens_bounded_witness :
    (generateTokens 2 3 none (fun _ _ => [1/2, 1/2]) (MTState.mk (fun _ => 0) 0 none)).length ≤ 3 ∧
    ∀ t ∈ generateTokens 2 3 none (fun _ _ => [1/2, 1/2]) (MTState.mk (fun _ => 0) 0 none),
      t < 2 ∧ t ≠ 2 - 1 :=
  generate_tokens_bounded 2 3 (fun _ _ => [1/2, 1/2]) (MTState.mk (fun _ => 0) 0 none)
    (by norm_num)

/-! ## C9: determinism of the construction pipeline -/

/-- C9 (two-run statement): two independent constructions of the model
pipeline from the same seed — Mersenne-Twister seed expansion, corpus
shuffle, tokenizer build — yield identical states: identical PRNG words,
identical shuffled corpus order, identical vocabulary.  Every downstream
observable (initial parameters, generated text) is a function of this state
and the shared call sequence, hence also identical. -/
theorem construction_deterministic (seed : ℕ) (names : List (List ℕ))
    (s t : MTState × List (List ℕ) × List ℕ)
    (hs : s = modelConstruct seed names) (ht : t = modelConstruct seed names) :
    s = t := hs.trans ht.symm

/-- Witness for C9 at seed 42 on a two-document corpus. -/
theorem construction_deterministic_witness :
    modelConstruct 42 [[1], [2]] = modelConstruct 42 [[1], [2]] :=
  construction_deterministic 42 [[1], [2]] _ _ rfl rfl

/-! ## C1: backward-pass gradient correctness — basic graph lemmas -/

theorem wf_guard0 (g : List Node) (hwf : WFGraph g) (v : ℕ) (hv : v < g.length) :
    (1 ≤ (getNode g v).nch ∧ (getNode g v).c0 < v) ↔ 1 ≤ (getNode g v).nch :=
  ⟨fun h => h.1, fun h => ⟨h, (hwf v hv).1 h⟩⟩

theorem wf_guard1 (g : List Node) (hwf : WFGraph g) (v : ℕ) (hv : v < g.length) :
    ((getNode g v).nch = 2 ∧ (getNode g v).c1 < v) ↔ (getNode g v).nch = 2 :=
  ⟨fun h => h.1, fun h => ⟨h, (hwf v hv).2 h⟩⟩

theorem reach_refl (g : List Node) (r : ℕ) : reach g r r = true := by
  rw [reach]; simp

theorem reach_le (g : List Node) : ∀ r v, reach g r v = true → v ≤ r := by
  intro r
  induction r using Nat.strong_induction_on with
  | _ r ih =>
    intro v h
    rw [reach] at h
    simp only [Bool.or_eq_true, beq_iff_eq] at h
    rcases h with (h | h) | h
    · omega
    · split at h
      · next hg => exact le_trans (ih _ hg.2 v h) (le_of_lt hg.2)
      · simp at h
    · split at h
      · next hg => exact le_trans (ih _ hg.2 v h) (le_of_lt hg.2)
      · simp at h

theorem reach_via0 (g : List Node) (v u : ℕ)
    (hg : 1 ≤ (getNode g v).nch ∧ (getNode g v).c0 < v)
    (h : reach g (getNode g v).c0 u = true) : reach g v u = true := by
  rw [reach, dif_pos hg]
  simp [h]

theorem reach_via1 (g : List Node) (v u : ℕ)
    (hg : (getNode g v).nch = 2 ∧ (getNode g v).c1 < v)
    (h : reach g (getNode g v).c1 u = true) : reach g v u = true := by
  rw [reach, dif_pos hg]
  simp [h]

theorem reach_closed (g : List Node) (S : ℕ → Prop)
    (hS : ∀ w, S w →
      (∀ _ : 1 ≤ (getNode g w).nch ∧ (getNode g w).c0 < w, S (getNode g w).c0) ∧
      (∀ _ : (getNode g w).nch = 2 ∧ (getNode g w).c1 < w, S (getNode g w).c1)) :
    ∀ r, S r → ∀ u, reach g r u = true → S u := by
  intro r
  induction r using Nat.strong_induction_on with
  | _ r ih =>
    intro hr u h
    rw [reach] at h
    simp only [Bool.or_eq_true, beq_iff_eq] at h
    rcases h with (h | h) | h
    · exact h ▸ hr
    · split at h
      · next hg => exact ih _ hg.2 ((hS r hr).1 hg) u h
      · simp at h
    · split at h
      · next hg => exact ih _ hg.2 ((hS r hr).2 hg) u h
      · simp at h

theorem pathSum_of_not_reach (g : List Node) :
    ∀ r v, reach g r v = false → pathSum g r v = 0 := by
  intro r
  induction r using Nat.strong_induction_on with
  | _ r ih =>
    intro v h
    rw [reach] at h
    simp only [Bool.or_eq_false_iff, beq_eq_false_iff_ne, ne_eq] at h
    rcases h with ⟨⟨hne, h0⟩, h1⟩
    rw [pathSum, if_neg hne]
    have t0 : (if hg : 1 ≤ (getNode g r).nch ∧ (getNode g r).c0 < r then
        (getNode g r).lg0 * pathSum g (getNode g r).c0 v else 0) = 0 := by
      split
      · next hg =>
        rw [dif_pos hg] at h0
        rw [ih _ hg.2 v h0]; ring
      · rfl
    have t1 : (if hg : (getNode g r).nch = 2 ∧ (getNode g r).c1 < r then
        (getNode g r).lg1 * pathSum g (getNode g r).c1 v else 0) = 0 := by
      split
      · next hg =>
        rw [dif_pos hg] at h1
        rw [ih _ hg.2 v h1]; ring
      · rfl
    rw [t0, t1]; ring

theorem pathSum_of_lt (g : List Node) (r v : ℕ) (h : r < v) : pathSum g r v = 0 := by
  apply pathSum_of_not_reach
  cases hr : reach g r v
  · rfl
  · exact absurd (reach_le g r v hr) (by omega)

theorem pathSum_self (g : List Node) (r : ℕ) : pathSum g r r = 1 := by
  rw [pathSum, if_pos rfl]
  have t0 : (if hg : 1 ≤ (getNode g r).nch ∧ (getNode g r).c0 < r then
      (getNode g r).lg0 * pathSum g (getNode g r).c0 r else 0) = 0 := by
    split
    · next hg => rw [pathSum_of_lt g _ _ hg.2]; ring
    · rfl
  have t1 : (if hg : (getNode g r).nch = 2 ∧ (getNode g r).c1 < r then
      (getNode g r).lg1 * pathSum g (getNode g r).c1 r else 0) = 0 := by
    split
    · next hg => rw [pathSum_of_lt g _ _ hg.2]; ring
    · rfl
  rw [t0, t1]; ring

theorem edgeW_self_zero (g : List Node) (hwf : WFGraph g) (v : ℕ)
    (hv : v < g.length) : edgeW g v v = 0 := by
  unfold edgeW
  rw [if_neg, if_neg]
  · ring
  · rintro ⟨h2, hc⟩
    exact absurd hc (Nat.ne_of_lt ((hwf v hv).2 h2))
  · rintro ⟨h1, hc⟩
    exact absurd hc (Nat.ne_of_lt ((hwf v hv).1 h1))

theorem edgeW_ne_zero_cases (g : List Node) (p u : ℕ) (h : edgeW g p u ≠ 0) :
    (1 ≤ (getNode g p).nch ∧ (getNode g p).c0 = u) ∨
    ((getNode g p).nch = 2 ∧ (getNode g p).c1 = u) := by
  by_cases h0 : 1 ≤ (getNode g p).nch ∧ (getNode g p).c0 = u
  · exact Or.inl h0
  · by_cases h1 : (getNode g p).nch = 2 ∧ (getNode g p).c1 = u
    · exact Or.inr h1
    · exact absurd (by unfold edgeW; rw [if_neg h0, if_neg h1]; ring) h

theorem append_singleton_eq {A B : List ℕ} {a b : ℕ}
    (h : A ++ [a] = B ++ [b]) : A = B ∧ a = b := by
  have h2 := congrArg List.reverse h
  simp only [List.reverse_append, List.reverse_singleton, List.singleton_append,
    List.cons.injEq] at h2
  exact ⟨List.reverse_injective h2.2, h2.1⟩

theorem CB_nil (g : List Node) : CB g [] := by
  intro L1 u L2 h
  exact absurd h (by simp)

theorem CB_append_singleton (g : List Node) (L : List ℕ) (v : ℕ)
    (hCB : CB g L) (hv : childrenIn g v L) : CB g (L ++ [v]) := by
  intro L1 u L2 heq
  rcases List.eq_nil_or_concat L2 with rfl | ⟨L2p, x, rfl⟩
  · have h2 : L1 ++ [u] = L ++ [v] := heq.symm
    rcases append_singleton_eq h2 with ⟨rfl, rfl⟩
    exact hv
  · have h2 : (L1 ++ u :: L2p) ++ [x] = L ++ [v] := by
      simpa using heq.symm
    rcases append_singleton_eq h2 with ⟨h3, rfl⟩
    exact hCB L1 u L2p h3.symm

/-- The adjoint recurrence: the path sum from `r` decomposes at the last
edge of each path.  This is the equation the reverse sweep establishes. -/
theorem pathSum_last_edge (g : List Node) (hwf : WFGraph g) :
    ∀ r, r < g.length → ∀ v,
      pathSum g r v = (if r = v then 1 else 0)
        + ∑ p ∈ Finset.range g.length, edgeW g p v * pathSum g r p := by
  intro r
  induction r using Nat.strong_induction_on with
  | _ r ih =>
    intro hr v
    have hexp : ∀ u p, pathSum g u p
        = (if u = p then 1 else 0)
          + (if _ : 1 ≤ (getNode g u).nch ∧ (getNode g u).c0 < u then
              (getNode g u).lg0 * pathSum g (getNode g u).c0 p else 0)
          + (if _ : (getNode g u).nch = 2 ∧ (getNode g u).c1 < u then
              (getNode g u).lg1 * pathSum g (getNode g u).c1 p else 0) :=
      fun u p => by rw [pathSum]
    by_cases hA : 1 ≤ (getNode g r).nch
    case neg =>
      have hB : ¬ (getNode g r).nch = 2 := fun h => hA (by omega)
      have hps : ∀ p, pathSum g r p = (if r = p then 1 else 0) := by
        intro p
        rw [hexp r p, dif_neg (fun h => hA h.1), dif_neg (fun h => hB h.1)]
        ring
      have hew : edgeW g r v = 0 := by
        unfold edgeW
        rw [if_neg (fun h => hA h.1), if_neg (fun h => hB h.1)]
        ring
      have hsum : ∑ p ∈ Finset.range g.length, edgeW g p v * pathSum g r p
          = ∑ p ∈ Finset.range g.length, (if r = p then edgeW g p v else 0) := by
        apply Finset.sum_congr rfl
        intro p _
        rw [hps p]
        by_cases h : r = p <;> simp [h]
      rw [hps v, hsum, Finset.sum_ite_eq, if_pos (Finset.mem_range.mpr hr), hew]
      ring
    case pos =>
      have hc0 : (getNode g r).c0 < r := (hwf r hr).1 hA
      have hc0n : (getNode g r).c0 < g.length := lt_trans hc0 hr
      have e0 := ih _ hc0 hc0n v
      by_cases hB : (getNode g r).nch = 2
      case pos =>
        have hc1 : (getNode g r).c1 < r := (hwf r hr).2 hB
        have hc1n : (getNode g r).c1 < g.length := lt_trans hc1 hr
        have e1 := ih _ hc1 hc1n v
        have hps : ∀ p, pathSum g r p = (if r = p then 1 else 0)
            + (getNode g r).lg0 * pathSum g (getNode g r).c0 p
            + (getNode g r).lg1 * pathSum g (getNode g r).c1 p := by
          intro p
          rw [hexp r p, dif_pos ⟨hA, hc0⟩, dif_pos ⟨hB, hc1⟩]
        have hew : edgeW g r v
            = (if (getNode g r).c0 = v then (getNode g r).lg0 else 0)
              + (if (getNode g r).c1 = v then (getNode g r).lg1 else 0) := by
          unfold edgeW
          congr 1
          · by_cases h : (getNode g r).c0 = v <;> simp [h, hA]
          · by_cases h : (getNode g r).c1 = v <;> simp [h, hB]
        have hsum : ∑ p ∈ Finset.range g.length, edgeW g p v * pathSum g r p
            = (∑ p ∈ Finset.range g.length, (if r = p then edgeW g p v else 0))
              + (getNode g r).lg0
                  * ∑ p ∈ Finset.range g.length, edgeW g p v * pathSum g (getNode g r).c0 p
              + (getNode g r).lg1
                  * ∑ p ∈ Finset.range g.length, edgeW g p v * pathSum g (getNode g r).c1 p := by
          rw [Finset.mul_sum, Finset.mul_sum, ← Finset.sum_add_distrib,
            ← Finset.sum_add_distrib]
          apply Finset.sum_congr rfl
          intro p _
          rw [hps p]
          by_cases h : r = p <;> simp [h] <;> ring
        have s0 : ∑ p ∈ Finset.range g.length, edgeW g p v * pathSum g (getNode g r).c0 p
            = pathSum g (getNode g r).c0 v - (if (getNode g r).c0 = v then 1 else 0) := by
          rw [e0]; ring
        have s1 : ∑ p ∈ Finset.range g.length, edgeW g p v * pathSum g (getNode g r).c1 p
            = pathSum g (getNode g r).c1 v - (if (getNode g r).c1 = v then 1 else 0) := by
          rw [e1]; ring
        rw [hps v, hsum, Finset.sum_ite_eq, if_pos (Finset.mem_range.mpr hr), hew,
          s0, s1]
        by_cases h0 : (getNode g r).c0 = v <;> by_cases h1 : (getNode g r).c1 = v <;>
          simp [h0, h1] <;> ring
      case neg =>
        have hps : ∀ p, pathSum g r p = (if r = p then 1 else 0)
            + (getNode g r).lg0 * pathSum g (getNode g r).c0 p := by
          intro p
          rw [hexp r p, dif_pos ⟨hA, hc0⟩, dif_neg (fun h => hB h.1)]
          ring
        have hew : edgeW g r v
            = (if (getNode g r).c0 = v then (getNode g r).lg0 else 0) := by
          unfold edgeW
          rw [if_neg (fun h : (getNode g r).nch = 2 ∧ (getNode g r).c1 = v => hB h.1)]
          by_cases h : (getNode g r).c0 = v <;> simp [h, hA]
        have hsum : ∑ p ∈ Finset.range g.length, edgeW g p v * pathSum g r p
            = (∑ p ∈ Finset.range g.length, (if r = p then edgeW g p v else 0))
              + (getNode g r).lg0
                  * ∑ p ∈ Finset.range g.length, edgeW g p v * pathSum g (getNode g r).c0 p := by
          rw [Finset.mul_sum, ← Finset.sum_add_distrib]
          apply Finset.sum_congr rfl
          intro p _
          rw [hps p]
          by_cases h : r = p <;> simp [h] <;> ring
        have s0 : ∑ p ∈ Finset.range g.length, edgeW g p v * pathSum g (getNode g r).c0 p
            = pathSum g (getNode g r).c0 v - (if (getNode g r).c0 = v then 1 else 0) := by
          rw [e0]; ring
        rw [hps v, hsum, Finset.sum_ite_eq, if_pos (Finset.mem_range.mpr hr), hew, s0]
        by_cases h0 : (getNode g r).c0 = v <;> simp [h0] <;> ring

set_option maxHeartbeats 1000000 in
/-- Full specification of one `buildTopo` call with pass id `gen`, by strong
induction on the node index.  Preconditions: every already-marked node is
either already in the output list or lies above `v` (it is an ancestor on the
DFS stack), listed nodes are marked, the list has the children-first property
and no duplicates.  Postconditions: marks only grow (and only to `gen`), the
list grows by newly-marked nodes reachable from `v`, newly marked nodes get
pushed, `v` ends marked, every newly marked node has its children marked,
listed nodes are marked, and the children-first property and duplicate
freedom are preserved. -/
theorem buildTopo_spec (g : List Node) (hwf : WFGraph g) (gen : ℕ) :
    ∀ v, v < g.length → ∀ ts : TopoState,
      (∀ u, ts.marks u = gen → u ∈ ts.order ∨ v < u) →
      (∀ u ∈ ts.order, ts.marks u = gen) →
      CB g ts.order →
      ts.order.Nodup →
      (∀ u, ts.marks u = gen → (buildTopo g gen v ts).marks u = gen) ∧
      (∀ u, (buildTopo g gen v ts).marks u = ts.marks u ∨
            (buildTopo g gen v ts).marks u = gen) ∧
      (∃ D, (buildTopo g gen v ts).order = ts.order ++ D ∧
            ∀ u ∈ D, ts.marks u ≠ gen ∧ reach g v u = true) ∧
      (∀ u, (buildTopo g gen v ts).marks u = gen →
            ts.marks u = gen ∨ u ∈ (buildTopo g gen v ts).order) ∧
      (buildTopo g gen v ts).marks v = gen ∧
      (∀ u, (buildTopo g gen v ts).marks u = gen → ts.marks u = gen ∨
            ((∀ _ : 1 ≤ (getNode g u).nch,
                (buildTopo g gen v ts).marks (getNode g u).c0 = gen) ∧
             (∀ _ : (getNode g u).nch = 2,
                (buildTopo g gen v ts).marks (getNode g u).c1 = gen))) ∧
      (∀ u ∈ (buildTopo g gen v ts).order, (buildTopo g gen v ts).marks u = gen) ∧
      CB g (buildTopo g gen v ts).order ∧
      (buildTopo g gen v ts).order.Nodup := by
  intro v
  induction v using Nat.strong_induction_on with
  | _ v ih =>
    intro hv ts pre1 pre2 pre3 pre4
    by_cases hm : ts.marks v = gen
    case pos =>
      have hid : buildTopo g gen v ts = ts := by rw [buildTopo, if_pos hm]
      rw [hid]
      exact ⟨fun u h => h, fun u => Or.inl rfl, ⟨[], by simp, by simp⟩,
        fun u h => Or.inl h, hm, fun u h => Or.inl h, pre2, pre3, pre4⟩
    case neg =>
      set T1 : TopoState := ⟨Function.update ts.marks v gen, ts.order⟩ with hT1
      set T2 : TopoState := (if _ : 1 ≤ (getNode g v).nch ∧ (getNode g v).c0 < v
          then buildTopo g gen (getNode g v).c0 T1 else T1) with hT2
      set T3 : TopoState := (if _ : (getNode g v).nch = 2 ∧ (getNode g v).c1 < v
          then buildTopo g gen (getNode g v).c1 T2 else T2) with hT3
      have hT1m : T1.marks = Function.update ts.marks v gen := by rw [hT1]
      have hT1o : T1.order = ts.order := by rw [hT1]
      have hunf : buildTopo g gen v ts = ⟨T3.marks, T3.order ++ [v]⟩ := by
        rw [buildTopo, if_neg hm, hT3, hT2, hT1]
      -- facts about the ts → T1 update
      have h1mono : ∀ u, ts.marks u = gen → T1.marks u = gen := by
        intro u h
        rw [hT1m]
        by_cases hu : u = v
        · subst hu; exact Function.update_same u gen ts.marks
        · rw [Function.update_noteq hu]; exact h
      have h1v : T1.marks v = gen := by
        rw [hT1m]; exact Function.update_same v gen ts.marks
      have h1frame : ∀ u, T1.marks u = ts.marks u ∨ T1.marks u = gen := by
        intro u
        rw [hT1m]
        by_cases hu : u = v
        · subst hu; exact Or.inr (Function.update_same u gen ts.marks)
        · rw [Function.update_noteq hu]; exact Or.inl rfl
      have h1split : ∀ u, T1.marks u = gen → u = v ∨ ts.marks u = gen := by
        intro u h
        rw [hT1m] at h
        by_cases hu : u = v
        · exact Or.inl hu
        · rw [Function.update_noteq hu] at h; exact Or.inr h
      have h1notnew : ∀ u, T1.marks u ≠ gen → ts.marks u ≠ gen := by
        intro u h hc
        exact h (h1mono u hc)
      have p2 : ∀ u ∈ T1.order, T1.marks u = gen := by
        intro u hu
        rw [hT1o] at hu
        exact h1mono u (pre2 u hu)
      have p3 : CB g T1.order := by rw [hT1o]; exact pre3
      have p4 : T1.order.Nodup := by rw [hT1o]; exact pre4
      -- stage 1 → 2
      have hST2 :
          (∀ u, T1.marks u = gen → T2.marks u = gen) ∧
          (∀ u, T2.marks u = T1.marks u ∨ T2.marks u = gen) ∧
          (∃ D, T2.order = T1.order ++ D ∧
            ∀ u ∈ D, T1.marks u ≠ gen ∧ reach g v u = true) ∧
          (∀ u, T2.marks u = gen → T1.marks u = gen ∨ u ∈ T2.order) ∧
          (1 ≤ (getNode g v).nch → T2.marks (getNode g v).c0 = gen) ∧
          (∀ u, T2.marks u = gen → T1.marks u = gen ∨
            ((∀ _ : 1 ≤ (getNode g u).nch, T2.marks (getNode g u).c0 = gen) ∧
             (∀ _ : (getNode g u).nch = 2, T2.marks (getNode g u).c1 = gen))) ∧
          (∀ u ∈ T2.order, T2.marks u = gen) ∧
          CB g T2.order ∧
          T2.order.Nodup := by
        by_cases hg : 1 ≤ (getNode g v).nch ∧ (getNode g v).c0 < v
        · have hT2eq : T2 = buildTopo g gen (getNode g v).c0 T1 := by
            rw [hT2, dif_pos hg]
          have p1 : ∀ u, T1.marks u = gen → u ∈ T1.order ∨ (getNode g v).c0 < u := by
            intro u h
            rcases h1split u h with rfl | h
            · exact Or.inr hg.2
            · rcases pre1 u h with h2 | h2
              · rw [hT1o]; exact Or.inl h2
              · exact Or.inr (by omega)
          obtain ⟨q1, q2, q3, q4, q5, q6, q7, q8, q9⟩ :=
            ih (getNode g v).c0 hg.2 (lt_trans hg.2 hv) T1 p1 p2 p3 p4
          rw [← hT2eq] at q1 q2 q3 q4 q5 q6 q7 q8 q9
          refine ⟨q1, q2, ?_, q4, fun _ => q5, q6, q7, q8, q9⟩
          obtain ⟨D, hD, hDall⟩ := q3
          exact ⟨D, hD, fun u hu =>
            ⟨(hDall u hu).1, reach_via0 g v u hg (hDall u hu).2⟩⟩
        · have hT2eq : T2 = T1 := by rw [hT2, dif_neg hg]
          have hA : ¬ 1 ≤ (getNode g v).nch := by
            intro hA
            exact hg ⟨hA, (hwf v hv).1 hA⟩
          rw [hT2eq]
          exact ⟨fun u h => h, fun u => Or.inl rfl, ⟨[], by simp, by simp⟩,
            fun u h => Or.inl h, fun h => absurd h hA, fun u h => Or.inl h,
            p2, p3, p4⟩
      obtain ⟨s21, s22, s23, s24, s25, s26, s27, s28, s29⟩ := hST2
      obtain ⟨D0, hD0, hD0all⟩ := s23
      -- stage 2 → 3
      have hST3 :
          (∀ u, T2.marks u = gen → T3.marks u = gen) ∧
          (∀ u, T3.marks u = T2.marks u ∨ T3.marks u = gen) ∧
          (∃ D, T3.order = T2.order ++ D ∧
            ∀ u ∈ D, T2.marks u ≠ gen ∧ reach g v u = true) ∧
          (∀ u, T3.marks u = gen → T2.marks u = gen ∨ u ∈ T3.order) ∧
          ((getNode g v).nch = 2 → T3.marks (getNode g v).c1 = gen) ∧
          (∀ u, T3.marks u = gen → T2.marks u = gen ∨
            ((∀ _ : 1 ≤ (getNode g u).nch, T3.marks (getNode g u).c0 = gen) ∧
             (∀ _ : (getNode g u).nch = 2, T3.marks (getNode g u).c1 = gen))) ∧
          (∀ u ∈ T3.order, T3.marks u = gen) ∧
          CB g T3.order ∧
          T3.order.Nodup := by
        by_cases hg : (getNode g v).nch = 2 ∧ (getNode g v).c1 < v
        · have hT3eq : T3 = buildTopo g gen (getNode g v).c1 T2 := by
            rw [hT3, dif_pos hg]
          have p1 : ∀ u, T2.marks u = gen → u ∈ T2.order ∨ (getNode g v).c1 < u := by
            intro u h
            rcases s24 u h with h2 | h2
            · rcases h1split u h2 with rfl | h3
              · exact Or.inr hg.2
              · rcases pre1 u h3 with h4 | h4
                · rw [hD0, hT1o]
                  exact Or.inl (List.mem_append_left D0 h4)
                · exact Or.inr (by omega)
            · exact Or.inl h2
          obtain ⟨q1, q2, q3, q4, q5, q6, q7, q8, q9⟩ :=
            ih (getNode g v).c1 hg.2 (lt_trans hg.2 hv) T2 p1 s27 s28 s29
          rw [← hT3eq] at q1 q2 q3 q4 q5 q6 q7 q8 q9
          refine ⟨q1, q2, ?_, q4, fun _ => q5, q6, q7, q8, q9⟩
          obtain ⟨D, hD, hDall⟩ := q3
          exact ⟨D, hD, fun u hu =>
            ⟨(hDall u hu).1, reach_via1 g v u hg (hDall u hu).2⟩⟩
        · have hT3eq : T3 = T2 := by rw [hT3, dif_neg hg]
          have hB : ¬ (getNode g v).nch = 2 := by
            intro hB
            exact hg ⟨hB, (hwf v hv).2 hB⟩
          rw [hT3eq]
          exact ⟨fun u h => h, fun u => Or.inl rfl, ⟨[], by simp, by simp⟩,
            fun u h => Or.inl h, fun h => absurd h hB, fun u h => Or.inl h,
            s27, s28, s29⟩
      obtain ⟨s31, s32, s33, s34, s35, s36, s37, s38, s39⟩ := hST3
      obtain ⟨D1, hD1, hD1all⟩ := s33
      rw [hunf]
      -- combined facts
      have hmono : ∀ u, ts.marks u = gen → T3.marks u = gen :=
        fun u h => s31 u (s21 u (h1mono u h))
      have hvmk : T3.marks v = gen := s31 v (s21 v h1v)
      have horder3 : T3.order = ts.order ++ (D0 ++ D1) := by
        rw [hD1, hD0, hT1o, List.append_assoc]
      have hsub0 : ∀ u ∈ ts.order, u ∈ T3.order := by
        intro u hu
        rw [horder3]
        exact List.mem_append_left _ hu
      have hpush : ∀ u, T3.marks u = gen →
          ts.marks u = gen ∨ u = v ∨ u ∈ T3.order := by
        intro u h
        rcases s34 u h with h2 | h2
        · rcases s24 u h2 with h3 | h3
          · rcases h1split u h3 with rfl | h4
            · exact Or.inr (Or.inl rfl)
            · exact Or.inl h4
          · refine Or.inr (Or.inr ?_)
            rw [hD1]
            exact List.mem_append_left _ h3
        · exact Or.inr (Or.inr h2)
      have hlow : ∀ u, u < v → T3.marks u = gen → u ∈ T3.order := by
        intro u hu h
        rcases hpush u h with h2 | h2 | h2
        · rcases pre1 u h2 with h3 | h3
          · exact hsub0 u h3
          · omega
        · omega
        · exact h2
      have hvnot : v ∉ T3.order := by
        intro hc
        rw [horder3] at hc
        rcases List.mem_append.mp hc with hc | hc
        · exact hm (pre2 v hc)
        · rcases List.mem_append.mp hc with hc | hc
          · exact (hD0all v hc).1 h1v
          · exact (hD1all v hc).1 (s21 v h1v)
      refine ⟨?_, ?_, ?_, ?_, ?_, ?_, ?_, ?_, ?_⟩
      · -- mono
        exact fun u h => hmono u h
      · -- frame
        intro u
        rcases s32 u with h3 | h3
        · rcases s22 u with h2 | h2
          · rcases h1frame u with h1 | h1
            · exact Or.inl (by rw [h3, h2, h1])
            · exact Or.inr (by rw [h3, h2, h1])
          · exact Or.inr (by rw [h3, h2])
        · exact Or.inr h3
      · -- order extension
        refine ⟨D0 ++ D1 ++ [v], ?_, ?_⟩
        · show T3.order ++ [v] = ts.order ++ (D0 ++ D1 ++ [v])
          rw [horder3, List.append_assoc]
        · intro u hu
          rcases List.mem_append.mp hu with hu | hu
          · rcases List.mem_append.mp hu with hu | hu
            · exact ⟨h1notnew u (hD0all u hu).1, (hD0all u hu).2⟩
            · refine ⟨?_, (hD1all u hu).2⟩
              intro hc
              exact (hD1all u hu).1 (s21 u (h1mono u hc))
          · rcases List.mem_singleton.mp hu with rfl
            exact ⟨hm, reach_refl g u⟩
      · -- marked → pushed
        intro u h
        rcases hpush u h with h2 | h2 | h2
        · exact Or.inl h2
        · subst h2
          exact Or.inr (List.mem_append_right _ (List.mem_singleton.mpr rfl))
        · exact Or.inr (List.mem_append_left _ h2)
      · -- v marked
        exact hvmk
      · -- closure
        intro u h
        rcases s36 u h with h2 | h2
        · rcases s26 u h2 with h3 | h3
          · rcases h1split u h3 with rfl | h4
            · refine Or.inr ⟨?_, ?_⟩
              · intro hA
                exact s31 _ (s25 hA)
              · intro hB
                exact s35 hB
            · exact Or.inl h4
          · exact Or.inr ⟨fun hA => s31 _ (h3.1 hA), fun hB => s31 _ (h3.2 hB)⟩
        · exact Or.inr h2
      · -- listed nodes marked
        intro u hu
        rcases List.mem_append.mp hu with hu | hu
        · exact s37 u hu
        · rcases List.mem_singleton.mp hu with rfl
          exact hvmk
      · -- children-first
        apply CB_append_singleton g T3.order v s38
        constructor
        · intro hA
          have hc0 : (getNode g v).c0 < v := (hwf v hv).1 hA
          exact hlow _ hc0 (s31 _ (s25 hA))
        · intro hB
          have hc1 : (getNode g v).c1 < v := (hwf v hv).2 hB
          exact hlow _ hc1 (s35 hB)
      · -- no duplicates
        rw [List.nodup_append]
        exact ⟨s39, List.nodup_singleton v, by
          intro a ha hb
          rcases List.mem_singleton.mp hb with rfl
          exact hvnot ha⟩

/-- Pointwise effect of one reverse-sweep iteration: node `u` gains
`edgeW g v u * grads v` (zero unless `u` is a child of `v`). -/
theorem backStep_eval (g : List Node) (v : ℕ) (grads : ℕ → ℚ) :
    ∀ u, backStep g v grads u = grads u + edgeW g v u * grads v := by
  intro u
  by_cases hA : 1 ≤ (getNode g v).nch
  · by_cases hB : (getNode g v).nch = 2
    · have hedge : edgeW g v u
          = (if (getNode g v).c0 = u then (getNode g v).lg0 else 0)
            + (if (getNode g v).c1 = u then (getNode g v).lg1 else 0) := by
        unfold edgeW
        congr 1
        · by_cases h : (getNode g v).c0 = u <;> simp [h, hA]
        · by_cases h : (getNode g v).c1 = u <;> simp [h, hB]
      simp only [backStep]
      rw [if_pos hB, if_pos hA, hedge, Function.update_apply,
        Function.update_apply, Function.update_apply]
      by_cases h1 : u = (getNode g v).c1
      · by_cases h0 : u = (getNode g v).c0
        · have hcc : (getNode g v).c1 = (getNode g v).c0 := h1.symm.trans h0
          rw [if_pos h1, if_pos hcc, if_pos h0.symm, if_pos h1.symm, ← h0]
          ring
        · have hcc : ¬ (getNode g v).c1 = (getNode g v).c0 := by
            intro hc; exact h0 (h1.trans hc)
          have h0s : ¬ (getNode g v).c0 = u := fun hc => h0 hc.symm
          rw [if_pos h1, if_neg hcc, if_neg h0s, if_pos h1.symm, ← h1]
          ring
      · by_cases h0 : u = (getNode g v).c0
        · have h1s : ¬ (getNode g v).c1 = u := fun hc => h1 hc.symm
          rw [if_neg h1, if_pos h0, if_pos h0.symm, if_neg h1s, ← h0]
          ring
        · have h0s : ¬ (getNode g v).c0 = u := fun hc => h0 hc.symm
          have h1s : ¬ (getNode g v).c1 = u := fun hc => h1 hc.symm
          rw [if_neg h1, if_neg h0, if_neg h0s, if_neg h1s]
          ring
    · have hedge : edgeW g v u
          = (if (getNode g v).c0 = u then (getNode g v).lg0 else 0) := by
        unfold edgeW
        rw [if_neg (fun h : (getNode g v).nch = 2 ∧ (getNode g v).c1 = u => hB h.1)]
        by_cases h : (getNode g v).c0 = u <;> simp [h, hA]
      simp only [backStep]
      rw [if_neg hB, if_pos hA, hedge, Function.update_apply]
      by_cases h0 : u = (getNode g v).c0
      · rw [if_pos h0, if_pos h0.symm, ← h0]
      · have h0s : ¬ (getNode g v).c0 = u := fun hc => h0 hc.symm
        rw [if_neg h0, if_neg h0s]
        ring
  · have hB : ¬ (getNode g v).nch = 2 := fun h => hA (by omega)
    have hedge : edgeW g v u = 0 := by
      unfold edgeW
      rw [if_neg (fun h : 1 ≤ (getNode g v).nch ∧ (getNode g v).c0 = u => hA h.1),
        if_neg (fun h : (getNode g v).nch = 2 ∧ (getNode g v).c1 = u => hB h.1)]
      ring
    simp only [backStep]
    rw [if_neg hB, if_neg hA, hedge]
    ring

set_option maxHeartbeats 1000000 in
/-- Invariant of the reverse sweep: processing the reversed topological list
`T.reverse` (parents before children), split as already-processed `P` and
remaining `Rest`, turns every gradient into the chain-rule adjoint
`pathSum g root`. -/
theorem backPropagate_inv (g : List Node) (hwf : WFGraph g) (root : ℕ)
    (hroot : root < g.length)
    (T : List ℕ) (hTmem : ∀ u, u ∈ T ↔ reach g root u = true)
    (hTnodup : T.Nodup) (hTCB : CB g T) (grads0 : ℕ → ℚ) :
    ∀ (Rest P : List ℕ) (grads : ℕ → ℚ),
      T.reverse = P ++ Rest →
      (∀ u ∈ P, grads u = pathSum g root u) →
      (∀ u, u ∈ T → u ∉ P →
        grads u = (if u = root then 1 else 0)
          + (P.map (fun p => edgeW g p u * pathSum g root p)).sum) →
      (∀ u, u ∉ T → grads u = grads0 u) →
      (∀ u ∈ T, backPropagate g Rest grads u = pathSum g root u) ∧
      (∀ u, u ∉ T → backPropagate g Rest grads u = grads0 u) := by
  intro Rest
  induction Rest with
  | nil =>
    intro P grads hsplit hP hQ hout
    have hPT : ∀ u ∈ T, u ∈ P := by
      intro u hu
      have h2 : u ∈ T.reverse := List.mem_reverse.mpr hu
      rw [hsplit] at h2
      simpa using h2
    exact ⟨fun u hu => hP u (hPT u hu), fun u hu => hout u hu⟩
  | cons v Rest ih =>
    intro P grads hsplit hP hQ hout
    have hvrev : v ∈ T.reverse := by
      rw [hsplit]
      exact List.mem_append_right _ (List.mem_cons_self v Rest)
    have hvT : v ∈ T := List.mem_reverse.mp hvrev
    have hvreach : reach g root v = true := (hTmem v).mp hvT
    have hvn : v < g.length := lt_of_le_of_lt (reach_le g root v hvreach) hroot
    have hrevnodup : (P ++ v :: Rest).Nodup := by
      rw [← hsplit]
      exact List.nodup_reverse.mpr hTnodup
    have hPnodup : P.Nodup := (List.nodup_append.mp hrevnodup).1
    have hvP : v ∉ P := by
      have hdisj := (List.nodup_append.mp hrevnodup).2.2
      intro hc
      exact hdisj hc (List.mem_cons_self v Rest)
    have hTsplit : T = Rest.reverse ++ v :: P.reverse := by
      have h2 := congrArg List.reverse hsplit
      simpa [List.reverse_append] using h2
    have hchv : childrenIn g v Rest.reverse := hTCB Rest.reverse v P.reverse hTsplit
    have hchRest : ∀ u, edgeW g v u ≠ 0 → u ∈ Rest := by
      intro u hnz
      rcases edgeW_ne_zero_cases g v u hnz with ⟨hA, hcu⟩ | ⟨hB, hcu⟩
      · have h2 := hchv.1 hA
        rw [hcu] at h2
        exact List.mem_reverse.mp h2
      · have h2 := hchv.2 hB
        rw [hcu] at h2
        exact List.mem_reverse.mp h2
    have hmemPRest : ∀ u, u ∈ P ++ v :: Rest → u ∈ T := by
      intro u hu
      rw [← hsplit] at hu
      exact List.mem_reverse.mp hu
    have hvanish : ∀ p, p ∈ Finset.range g.length → p ∉ P.toFinset →
        edgeW g p v * pathSum g root p = 0 := by
      intro p hpr hpP
      rw [List.mem_toFinset] at hpP
      by_cases hrp : reach g root p = true
      · have hpT : p ∈ T := (hTmem p).mpr hrp
        have hpb : p ∈ P ++ v :: Rest := by
          rw [← hsplit]
          exact List.mem_reverse.mpr hpT
        rcases List.mem_append.mp hpb with hc | hc
        · exact absurd hc hpP
        · rcases List.mem_cons.mp hc with rfl | hc
          · rw [edgeW_self_zero g hwf p hvn]
            ring
          · have hz : edgeW g p v = 0 := by
              by_contra hnz
              rcases edgeW_ne_zero_cases g p v hnz with hcase | hcase
              all_goals {
                obtain ⟨A, B, hAB⟩ := List.append_of_mem (List.mem_reverse.mpr hc)
                have hTsplit2 : T = A ++ p :: (B ++ v :: P.reverse) := by
                  rw [hTsplit, hAB]
                  simp [List.append_assoc]
                have hchp : childrenIn g p A := hTCB A p (B ++ v :: P.reverse) hTsplit2
                have hvA : v ∈ A := by
                  rcases hcase with ⟨hx, hcu⟩
                  first
                    | exact hcu ▸ hchp.1 hx
                    | exact hcu ▸ hchp.2 hx
                have hnd2 := hTnodup
                rw [hTsplit2, List.nodup_append] at hnd2
                exact hnd2.2.2 hvA (List.mem_cons_of_mem p
                  (List.mem_append_right _ (List.mem_cons_self v P.reverse)))
              }
            rw [hz]
            ring
      · have hf : reach g root p = false := by
          revert hrp
          cases reach g root p <;> simp
        rw [pathSum_of_not_reach g root p hf]
        ring
    have hKeyA : grads v = pathSum g root v := by
      have hto : (P.map (fun p => edgeW g p v * pathSum g root p)).sum
          = ∑ p ∈ P.toFinset, edgeW g p v * pathSum g root p :=
        (List.sum_toFinset _ hPnodup).symm
      have hsub : P.toFinset ⊆ Finset.range g.length := by
        intro p hp
        rw [List.mem_toFinset] at hp
        have hpT : p ∈ T := hmemPRest p (List.mem_append_left _ hp)
        have hle := reach_le g root p ((hTmem p).mp hpT)
        exact Finset.mem_range.mpr (lt_of_le_of_lt hle hroot)
      have hext : ∑ p ∈ P.toFinset, edgeW g p v * pathSum g root p
          = ∑ p ∈ Finset.range g.length, edgeW g p v * pathSum g root p :=
        Finset.sum_subset hsub (fun p hpr hpP => hvanish p hpr hpP)
      rw [hQ v hvT hvP, hto, hext, pathSum_last_edge g hwf root hroot v]
      congr 1
      by_cases hvr : v = root
      · simp [hvr]
      · rw [if_neg hvr, if_neg (fun h => hvr h.symm)]
    have hbs := backStep_eval g v grads
    simp only [backPropagate]
    apply ih (P ++ [v]) (backStep g v grads)
    · rw [hsplit, List.append_assoc]
      rfl
    · intro u hu
      rw [hbs u]
      rcases List.mem_append.mp hu with hu2 | hu2
      · have hz : edgeW g v u = 0 := by
          by_contra hnz
          have huR := hchRest u hnz
          have hdisj := (List.nodup_append.mp hrevnodup).2.2
          exact hdisj hu2 (List.mem_cons_of_mem v huR)
        rw [hz, hP u hu2]
        ring
      · rcases List.mem_singleton.mp hu2 with rfl
        rw [edgeW_self_zero g hwf u hvn, hKeyA]
        ring
    · intro u huT hu
      have huP : u ∉ P := fun hc => hu (List.mem_append_left _ hc)
      rw [hbs u, hQ u huT huP, hKeyA, List.map_append, List.sum_append]
      simp only [List.map_cons, List.map_nil, List.sum_cons, List.sum_nil]
      ring
    · intro u huT
      have hz : edgeW g v u = 0 := by
        by_contra hnz
        have huR := hchRest u hnz
        exact huT (hmemPRest u (List.mem_append_right _ (List.mem_cons_of_mem v huR)))
      rw [hbs u, hz, hout u huT]
      ring

set_option maxHeartbeats 1000000 in
/-- C1: one call of `root.backward()` on a well-formed expression graph — all
gradient accumulators of reachable nodes zero beforehand, all generation
markers at most the global counter (true initially and re-established by
every pass) — leaves every reachable node's gradient equal to the chain-rule
partial derivative `∂root/∂node` (`pathSum`), leaves unreachable gradients
untouched, visits every reachable node exactly once (its topological list
counts each reachable node once and contains nothing else), bumps the global
generation counter by one, and re-establishes the marker invariant, so
repeated backward calls on overlapping subgraphs again visit each node
exactly once. -/
theorem backward_computes_gradients (g : List Node) (root : ℕ) (st : BackState)
    (hwf : WFGraph g) (hroot : root < g.length)
    (hmk : ∀ u, st.marks u ≤ st.cnt)
    (hg0 : ∀ u, reach g root u = true → st.grads u = 0) :
    (∀ u, reach g root u = true →
        (backwardPass g root st).grads u = pathSum g root u) ∧
    (∀ u, reach g root u = false →
        (backwardPass g root st).grads u = st.grads u) ∧
    (∀ u, (backwardTopo g root st).count u
        = if reach g root u = true then 1 else 0) ∧
    (backwardPass g root st).cnt = st.cnt + 1 ∧
    (∀ u, (backwardPass g root st).marks u ≤ (backwardPass g root st).cnt) := by
  have hnm : ∀ u, ¬ (st.marks u = st.cnt + 1) := by
    intro u h
    have := hmk u
    omega
  have pre1 : ∀ u, st.marks u = st.cnt + 1 → u ∈ ([] : List ℕ) ∨ root < u := by
    intro u h
    exact absurd h (hnm u)
  have pre2 : ∀ u ∈ ([] : List ℕ), st.marks u = st.cnt + 1 := by
    intro u hu
    simp at hu
  obtain ⟨q1, q2, q3, q4, q5, q6, q7, q8, q9⟩ :=
    buildTopo_spec g hwf (st.cnt + 1) root hroot ⟨st.marks, []⟩ pre1 pre2
      (CB_nil g) List.nodup_nil
  set B := buildTopo g (st.cnt + 1) root (⟨st.marks, []⟩ : TopoState) with hB
  have hmarked_mem : ∀ u, B.marks u = st.cnt + 1 → u ∈ B.order := by
    intro u h
    rcases q4 u h with h2 | h2
    · exact absurd h2 (hnm u)
    · exact h2
  have hmem_reach : ∀ u, u ∈ B.order ↔ reach g root u = true := by
    intro u
    obtain ⟨D, hD, hDall⟩ := q3
    have hD2 : B.order = D := by simpa using hD
    constructor
    · intro hu
      rw [hD2] at hu
      exact (hDall u hu).2
    · intro hu
      have hcm : ∀ w, B.marks w = st.cnt + 1 →
          (∀ _ : 1 ≤ (getNode g w).nch ∧ (getNode g w).c0 < w,
            B.marks (getNode g w).c0 = st.cnt + 1) ∧
          (∀ _ : (getNode g w).nch = 2 ∧ (getNode g w).c1 < w,
            B.marks (getNode g w).c1 = st.cnt + 1) := by
        intro w hw
        rcases q6 w hw with h2 | h2
        · exact absurd h2 (hnm w)
        · exact ⟨fun hg2 => h2.1 hg2.1, fun hg2 => h2.2 hg2.1⟩
      exact hmarked_mem u (reach_closed g (fun w => B.marks w = st.cnt + 1)
        hcm root q5 u hu)
  have hbp : backwardPass g root st
      = ⟨B.marks, st.cnt + 1,
         backPropagate g B.order.reverse (Function.update st.grads root 1)⟩ := by
    rw [hB]
    rfl
  have htp : backwardTopo g root st = B.order := by
    rw [hB]
    rfl
  have hQ0 : ∀ u, u ∈ B.order → u ∉ ([] : List ℕ) →
      Function.update st.grads root 1 u = (if u = root then 1 else 0)
        + (([] : List ℕ).map (fun p => edgeW g p u * pathSum g root p)).sum := by
    intro u hu _
    simp only [List.map_nil, List.sum_nil, add_zero]
    by_cases hur : u = root
    · subst hur
      rw [Function.update_same, if_pos rfl]
    · rw [Function.update_noteq hur, if_neg hur]
      exact hg0 u ((hmem_reach u).mp hu)
  have hout0 : ∀ u, u ∉ B.order → Function.update st.grads root 1 u = st.grads u := by
    intro u hu
    have hur : u ≠ root := by
      intro hc
      subst hc
      exact hu (hmarked_mem u q5)
    rw [Function.update_noteq hur]
  obtain ⟨c1, c2⟩ := backPropagate_inv g hwf root hroot B.order hmem_reach q9 q8
    st.grads B.order.reverse [] (Function.update st.grads root 1) rfl
    (fun u hu => absurd hu (List.not_mem_nil u)) hQ0 hout0
  refine ⟨?_, ?_, ?_, ?_, ?_⟩
  · intro u hu
    rw [hbp]
    exact c1 u ((hmem_reach u).mpr hu)
  · intro u hu
    rw [hbp]
    have hnmem : u ∉ B.order := by
      intro hc
      have h3 := (hmem_reach u).mp hc
      rw [hu] at h3
      exact Bool.noConfusion h3
    exact c2 u hnmem
  · intro u
    rw [htp]
    by_cases hu : reach g root u = true
    · rw [if_pos hu]
      have hmem := (hmem_reach u).mpr hu
      have hle := List.nodup_iff_count_le_one.mp q9 u
      have hpos : 0 < B.order.count u := List.count_pos_iff.mpr hmem
      omega
    · rw [if_neg hu]
      apply List.count_eq_zero.mpr
      intro hc
      exact hu ((hmem_reach u).mp hc)
  · rw [hbp]
  · intro u
    rw [hbp]
    show B.marks u ≤ st.cnt + 1
    rcases q2 u with h2 | h2
    · rw [h2]
      show st.marks u ≤ st.cnt + 1
      have := hmk u
      omega
    · rw [h2]

/-- Witness for C1 on the shared-subexpression graph
`a = 2, b = 3, d = a*b, root = a + d` (node `a` has two parents), with zero
gradients, zero markers and counter zero. -/
theorem backward_computes_gradients_witness :
    (∀ u, reach (mkAdd (mkMul (mkLeaf (mkLeaf [] 2) 3) 0 1) 0 2) 3 u = true →
        (backwardPass (mkAdd (mkMul (mkLeaf (mkLeaf [] 2) 3) 0 1) 0 2) 3
            ⟨fun _ => 0, 0, fun _ => 0⟩).grads u
          = pathSum (mkAdd (mkMul (mkLeaf (mkLeaf [] 2) 3) 0 1) 0 2) 3 u) ∧
    (∀ u, reach (mkAdd (mkMul (mkLeaf (mkLeaf [] 2) 3) 0 1) 0 2) 3 u = false →
        (backwardPass (mkAdd (mkMul (mkLeaf (mkLeaf [] 2) 3) 0 1) 0 2) 3
            ⟨fun _ => 0, 0, fun _ => 0⟩).grads u = (fun _ => (0 : ℚ)) u) ∧
    (∀ u, (backwardTopo (mkAdd (mkMul (mkLeaf (mkLeaf [] 2) 3) 0 1) 0 2) 3
            ⟨fun _ => 0, 0, fun _ => 0⟩).count u
        = if reach (mkAdd (mkMul (mkLeaf (mkLeaf [] 2) 3) 0 1) 0 2) 3 u = true
          then 1 else 0) ∧
    (backwardPass (mkAdd (mkMul (mkLeaf (mkLeaf [] 2) 3) 0 1) 0 2) 3
        ⟨fun _ => 0, 0, fun _ => 0⟩).cnt = 0 + 1 ∧
    (∀ u, (backwardPass (mkAdd (mkMul (mkLeaf (mkLeaf [] 2) 3) 0 1) 0 2) 3
            ⟨fun _ => 0, 0, fun _ => 0⟩).marks u
        ≤ (backwardPass (mkAdd (mkMul (mkLeaf (mkLeaf [] 2) 3) 0 1) 0 2) 3
            ⟨fun _ => 0, 0, fun _ => 0⟩).cnt) :=
  backward_computes_gradients (mkAdd (mkMul (mkLeaf (mkLeaf [] 2) 3) 0 1) 0 2) 3
    ⟨fun _ => 0, 0, fun _ => 0⟩
    (by unfold WFGraph; decide) (by decide)
    (fun u => Nat.le_refl 0) (fun u _ => rfl)
